import Mathlib

/-!
Shallow embedding of the decision-tree construction engine of
`eduml/tree/_decision_tree.py` (class `DecisionTree`): the node data the
builder maintains, the stopping-criteria checks, the recursive builder
`_split`, `fit`, and the prediction traversal `predict`.

Numeric feature and label values are modelled over `Int`.  The external
collaborators — the split selector `_best_split`, the impurity
`criterion`, and `_evaluate_leaf` — are methods of subclasses that are not
part of the sources; they are taken as function parameters, and concrete
instances used in scenarios are modelled from the spec.  The unbounded
Python recursion of `_split` is modelled with an explicit fuel argument;
a result of `none` means the fuel was exhausted.
-/

namespace Eduml

/-- A feature row (one sample of the feature matrix). -/
abbrev Row := List Int

/-- Modelled from the spec: `Node.decision` (file `_node.py`, which is not
among the sources) evaluates the stored (feature index, threshold) rule on
a row and routes right (`true`) iff the feature value at index `p`
satisfies the threshold comparison, here: exceeds `val`. -/
def decision (p : Nat) (val : Int) (x : Row) : Bool :=
  decide (val < x.getD p 0)

/-- Stopping-criterion configuration of `DecisionTree.__init__`;
`none` models the `math.inf` sentinel (no limit).  The source accepts
`min_nodes_per_leaf` but never consults it when splitting. -/
structure Config where
  max_depth : Option Nat
  max_nodes : Option Nat
  max_leaf_nodes : Option Nat
  min_nodes_per_leaf : Nat
deriving DecidableEq

/-- `k < limit` where the absent limit is `math.inf` (always true). -/
def ltLim (k : Nat) : Option Nat → Bool
  | none => true
  | some m => decide (k < m)

/-- The data of a `Node` that the builder reads: its `values`
(sample indices into the training set), its `size`, and its `depth`. -/
structure NodeInfo where
  values : List Nat
  size : Nat
  depth : Nat
deriving DecidableEq

/-- A resolved node of a fitted tree: either a sealed leaf carrying its
prediction, or an internal node carrying the attained loss, the feature
index `p`, the threshold `val`, and its two children. -/
inductive NTree where
  | leaf : NodeInfo → Int → NTree
  | internal : NodeInfo → Int → Nat → Int → NTree → NTree → NTree
deriving DecidableEq

/-- The `NodeInfo` of a resolved node. -/
def NTree.info : NTree → NodeInfo
  | .leaf i _ => i
  | .internal i _ _ _ _ _ => i

/-- `Node.is_leaf`. -/
def NTree.is_leaf : NTree → Bool
  | .leaf _ _ => true
  | .internal _ _ _ _ _ _ => false

/-- Number of nodes of a fitted subtree (a manual traversal count). -/
def NTree.nodeCount : NTree → Nat
  | .leaf _ _ => 1
  | .internal _ _ _ _ l r => 1 + l.nodeCount + r.nodeCount

/-- Number of leaves of a fitted subtree (a manual traversal count). -/
def NTree.leafCount : NTree → Nat
  | .leaf _ _ => 1
  | .internal _ _ _ _ l r => l.leafCount + r.leafCount

/-- All nodes of a fitted subtree, root first. -/
def NTree.nodes : NTree → List NTree
  | .leaf i pr => [.leaf i pr]
  | .internal i lo p v l r => .internal i lo p v l r :: (l.nodes ++ r.nodes)

/-- The counters of the `DecisionTree` instance that the builder reads and
writes: `self.num_nodes` and `self.num_leaf_nodes`. -/
structure BState where
  num_nodes : Nat
  num_leaf_nodes : Nat
deriving DecidableEq

/-- The split-selector collaborator `_best_split`: restricted features and
labels in; `none` (the no-viable-split sentinel) or
`(loss, feature index, threshold)` out. -/
abbrev Selector := List Row → List Int → Option (Int × Nat × Int)

/-- `self.X[node.values]`: restriction of the feature matrix to a node. -/
def restrictX (X : List Row) (idxs : List Nat) : List Row :=
  idxs.map fun i => X.getD i []

/-- `self.y[node.values]`: restriction of the target vector to a node. -/
def restrictY (y : List Int) (idxs : List Nat) : List Int :=
  idxs.map fun i => y.getD i 0

/-- `DecisionTree._is_pure`: the criterion collaborator scores the node's
label subset; the node is pure iff the score is exactly zero. -/
def _is_pure (crit : List Int → Int) (y : List Int) (nd : NodeInfo) : Bool :=
  decide (crit (restrictY y nd.values) = 0)

/-- `DecisionTree._check_criterion`: depth below `max_depth`, node count
below `max_nodes`, leaf count below `max_leaf_nodes`, and `size > 1`. -/
def _check_criterion (cfg : Config) (st : BState) (nd : NodeInfo) : Bool :=
  ltLim nd.depth cfg.max_depth &&
  ltLim st.num_nodes cfg.max_nodes &&
  ltLim st.num_leaf_nodes cfg.max_leaf_nodes &&
  decide (1 < nd.size)

/-- The indices of `vals` routed left, i.e. those whose row decides `false`
(`curr.decision(self.X[i]) == 0` in the source); order preserved. -/
def left_values (X : List Row) (p : Nat) (v : Int) (vals : List Nat) : List Nat :=
  vals.filter fun i => !(decision p v (X.getD i []))

/-- The indices of `vals` routed right (decision `true`); order preserved. -/
def right_values (X : List Row) (p : Nat) (v : Int) (vals : List Nat) : List Nat :=
  vals.filter fun i => decision p v (X.getD i [])

/-- `sum(train_decisions)`: how many restricted rows decide `true`. -/
def true_count (p : Nat) (v : Int) (Xs : List Row) : Nat :=
  (Xs.filter fun x => decision p v x).length

/-- The left child's `NodeInfo` as the source constructs it:
`size = curr.size - sum(train_decisions)`, `depth = curr.depth + 1`. -/
def left_info (X : List Row) (p : Nat) (v : Int) (nd : NodeInfo) : NodeInfo :=
  ⟨left_values X p v nd.values, nd.size - true_count p v (restrictX X nd.values),
   nd.depth + 1⟩

/-- The right child's `NodeInfo` as the source constructs it:
`size = sum(train_decisions)`, `depth = curr.depth + 1`. -/
def right_info (X : List Row) (p : Nat) (v : Int) (nd : NodeInfo) : NodeInfo :=
  ⟨right_values X p v nd.values, true_count p v (restrictX X nd.values),
   nd.depth + 1⟩

/-- Sealing a node as a leaf: store the prediction computed by the
leaf-evaluation collaborator on the node's label subset and increment the
leaf counter. -/
def sealLeaf (ev : List Int → Int) (y : List Int) (nd : NodeInfo) (st : BState) :
    NTree × BState :=
  (NTree.leaf nd (ev (restrictY y nd.values)), ⟨st.num_nodes, st.num_leaf_nodes + 1⟩)

/-- `DecisionTree._split` with explicit fuel.  Mirrors the source order:
query the selector on the node's restricted data and seal on the `None`
sentinel; otherwise record the rule, partition the indices, construct the
left child (incrementing the node counter immediately), recurse into it or
seal it, then do the same for the right child. -/
def _split (cfg : Config) (X : List Row) (y : List Int) (sel : Selector)
    (crit : List Int → Int) (ev : List Int → Int) :
    Nat → BState → NodeInfo → Option (NTree × BState)
  | 0, _, _ => none
  | fuel + 1, st, nd =>
    match sel (restrictX X nd.values) (restrictY y nd.values) with
    | none => some (sealLeaf ev y nd st)
    | some (loss, p, v) =>
      let lnd := left_info X p v nd
      let st1 : BState := ⟨st.num_nodes + 1, st.num_leaf_nodes⟩
      match (if !(_is_pure crit y lnd) && _check_criterion cfg st1 lnd then
               _split cfg X y sel crit ev fuel st1 lnd
             else some (sealLeaf ev y lnd st1)) with
      | none => none
      | some (lt, st2) =>
        let rnd := right_info X p v nd
        let st3 : BState := ⟨st2.num_nodes + 1, st2.num_leaf_nodes⟩
        match (if !(_is_pure crit y rnd) && _check_criterion cfg st3 rnd then
                 _split cfg X y sel crit ev fuel st3 rnd
               else some (sealLeaf ev y rnd st3)) with
        | none => none
        | some (rt, st4) => some (NTree.internal nd loss p v lt rt, st4)

/-- The `DecisionTree` instance state the engine maintains. -/
structure DecisionTree where
  root : Option NTree
  num_nodes : Nat
  num_leaf_nodes : Nat
  cfg : Config
deriving DecidableEq

/-- `DecisionTree.__init__`: no root, both counters zero. -/
def mkTree (cfg : Config) : DecisionTree := ⟨none, 0, 0, cfg⟩

/-- `DecisionTree.fit`: construct the root over the full index range
`[0, n)` at depth 1, increment the node counter (note: the counters are
not reset), and run `_split` on the root. -/
def fit (t : DecisionTree) (fuel : Nat) (X : List Row) (y : List Int)
    (sel : Selector) (crit : List Int → Int) (ev : List Int → Int) :
    Option DecisionTree :=
  match _split t.cfg X y sel crit ev fuel
      ⟨t.num_nodes + 1, t.num_leaf_nodes⟩ ⟨List.range X.length, X.length, 1⟩ with
  | none => none
  | some (tr, st) => some ⟨some tr, st.num_nodes, st.num_leaf_nodes, t.cfg⟩

/-- The per-row loop of `predict`: descend from a node to a leaf. -/
def walk : NTree → Row → Int
  | .leaf _ pred, _ => pred
  | .internal _ _ p v l r, x => if decision p v x then walk r x else walk l x

/-- `DecisionTree.predict`: one prediction per row, in order.  With zero
rows the per-row loop body never runs and the empty list is returned; with
at least one row and no root the first iteration dereferences the absent
root (modelled as `none`). -/
def predict (t : DecisionTree) (X : List Row) : Option (List Int) :=
  match X with
  | [] => some []
  | _ => t.root.map fun r => X.map (walk r)

/-- Modelled from the spec: a concrete impurity collaborator, zero exactly
on homogeneous label subsets. -/
def critEq : List Int → Int :=
  fun ys => if ys.all fun a => a == ys.headD 0 then 0 else 1

/-- Modelled from the spec: a concrete leaf-evaluation collaborator. -/
def evalHead : List Int → Int := fun ys => ys.headD 0

/-- Modelled from the spec: a deterministic split selector on feature 0
that splits at the minimum feature value when at least two distinct values
exist, and returns the no-viable-split sentinel otherwise (in particular
on every singleton subset, where no split can improve). -/
def selMid : Selector := fun Xs _ =>
  let vals := Xs.map fun x => x.getD 0 0
  let mn := vals.foldr min (vals.headD 0)
  let mx := vals.foldr max (vals.headD 0)
  if mn < mx then some (0, 0, mn) else none

/-- A selector that always reports the no-viable-split sentinel. -/
def selNone : Selector := fun _ _ => none

/-- A selector whose returned rule routes every sample with nonnegative
features to the right (threshold below all feature values). -/
def selAllRight : Selector := fun _ _ => some (0, 0, -1)

/-- Configuration with every limit unbounded. -/
def cfgFree : Config := ⟨none, none, none, 1⟩

/-- Configuration with `max_depth = 1`. -/
def cfgD1 : Config := ⟨some 1, none, none, 1⟩

/-- Configuration with `max_leaf_nodes = 2`. -/
def cfgL2 : Config := ⟨none, none, some 2, 1⟩

/-- Configuration with `max_depth = 2`. -/
def cfgD2 : Config := ⟨some 2, none, none, 1⟩

/-- The four-sample single-feature dataset of the spec's scenarios. -/
def X4 : List Row := [[0], [1], [2], [3]]

/-- Four pairwise distinct labels. -/
def y4 : List Int := [0, 1, 2, 3]

/-- The spec's scenario labels for `X4`. -/
def y04 : List Int := [0, 0, 1, 1]

/-- `childResult` packages how `_split` resolves one freshly constructed
child: recurse when impure and within the stopping criteria, else seal. -/
def childResult (cfg : Config) (X : List Row) (y : List Int) (sel : Selector)
    (crit : List Int → Int) (ev : List Int → Int) (fuel : Nat) (st : BState)
    (cnd : NodeInfo) : Option (NTree × BState) :=
  if !(_is_pure crit y cnd) && _check_criterion cfg st cnd then
    _split cfg X y sel crit ev fuel st cnd
  else some (sealLeaf ev y cnd st)

/-- Inversion of a successful `_split` call at positive fuel: either the
selector reported the no-viable-split sentinel and the node was sealed, or
it returned a rule and both children were resolved in order. -/
theorem _split_succ_inv {cfg : Config} {X : List Row} {y : List Int}
    {sel : Selector} {crit ev : List Int → Int} {fuel : Nat} {st : BState}
    {nd : NodeInfo} {t : NTree} {s' : BState}
    (h : _split cfg X y sel crit ev (fuel + 1) st nd = some (t, s')) :
    (sel (restrictX X nd.values) (restrictY y nd.values) = none ∧
      t = NTree.leaf nd (ev (restrictY y nd.values)) ∧
      s' = ⟨st.num_nodes, st.num_leaf_nodes + 1⟩) ∨
    ∃ loss p v lt st2 rt,
      sel (restrictX X nd.values) (restrictY y nd.values) = some (loss, p, v) ∧
      childResult cfg X y sel crit ev fuel ⟨st.num_nodes + 1, st.num_leaf_nodes⟩
        (left_info X p v nd) = some (lt, st2) ∧
      childResult cfg X y sel crit ev fuel ⟨st2.num_nodes + 1, st2.num_leaf_nodes⟩
        (right_info X p v nd) = some (rt, s') ∧
      t = NTree.internal nd loss p v lt rt := by
  rw [_split] at h
  split at h
  · left
    simp only [sealLeaf, Option.some.injEq, Prod.mk.injEq] at h
    exact ⟨by assumption, h.1.symm, h.2.symm⟩
  · dsimp only at h
    split at h
    · exact absurd h (by simp)
    · split at h
      · exact absurd h (by simp)
      · right
        simp only [Option.some.injEq, Prod.mk.injEq] at h
        rename_i x2 loss p v hsel x1 lt st2 hL x0 rt st4 hR
        exact ⟨loss, p, v, lt, st2, rt, hsel, hL, h.2 ▸ hR, h.1.symm⟩

/-- A resolved child is either the result of a recursive `_split` (when
impure and within the stopping criteria) or the sealed leaf. -/
theorem childResult_cases {cfg : Config} {X : List Row} {y : List Int}
    {sel : Selector} {crit ev : List Int → Int} {fuel : Nat} {st : BState}
    {cnd : NodeInfo} {res : NTree × BState}
    (h : childResult cfg X y sel crit ev fuel st cnd = some res) :
    ((!(_is_pure crit y cnd) && _check_criterion cfg st cnd) = true ∧
      _split cfg X y sel crit ev fuel st cnd = some res) ∨
    ((!(_is_pure crit y cnd) && _check_criterion cfg st cnd) = false ∧
      res = sealLeaf ev y cnd st) := by
  unfold childResult at h
  by_cases hc : (!(_is_pure crit y cnd) && _check_criterion cfg st cnd) = true
  · rw [if_pos hc] at h
    exact Or.inl ⟨hc, h⟩
  · rw [if_neg hc] at h
    exact Or.inr ⟨by simpa using hc, (Option.some.inj h).symm⟩

/-- `_split` preserves the node data it was called on. -/
theorem _split_info {cfg : Config} {X : List Row} {y : List Int}
    {sel : Selector} {crit ev : List Int → Int} {fuel : Nat} {st : BState}
    {nd : NodeInfo} {t : NTree} {s' : BState}
    (h : _split cfg X y sel crit ev fuel st nd = some (t, s')) : t.info = nd := by
  cases fuel with
  | zero => simp [_split] at h
  | succ fuel =>
    rcases _split_succ_inv h with ⟨_, ht, _⟩ | ⟨loss, p, v, lt, st2, rt, _, _, _, ht⟩ <;>
      subst ht <;> rfl

/-- Counter bookkeeping of `_split`: a successful call adds exactly the
subtree's node count minus one (the node itself was already counted by the
caller) to `num_nodes` and the subtree's leaf count to `num_leaf_nodes`. -/
theorem _split_counts {cfg : Config} {X : List Row} {y : List Int}
    {sel : Selector} {crit ev : List Int → Int} :
    ∀ (fuel : Nat) {st nd t s'},
    _split cfg X y sel crit ev fuel st nd = some (t, s') →
    s'.num_nodes + 1 = st.num_nodes + t.nodeCount ∧
    s'.num_leaf_nodes = st.num_leaf_nodes + t.leafCount := by
  intro fuel
  induction fuel with
  | zero => intro st nd t s' h; simp [_split] at h
  | succ fuel ih =>
    intro st nd t s' h
    rcases _split_succ_inv h with ⟨_, ht, hs⟩ | ⟨loss, p, v, lt, st2, rt, _, hL, hR, ht⟩
    · subst ht; subst hs
      simp [NTree.nodeCount, NTree.leafCount]
    · have cL : st2.num_nodes + 1 = (st.num_nodes + 1) + lt.nodeCount ∧
          st2.num_leaf_nodes = st.num_leaf_nodes + lt.leafCount := by
        rcases childResult_cases hL with ⟨_, hs⟩ | ⟨_, hs⟩
        · exact ih hs
        · simp only [sealLeaf, Prod.mk.injEq] at hs
          obtain ⟨h1, h2⟩ := hs
          subst h1; subst h2
          simp [NTree.nodeCount, NTree.leafCount]
      have cR : s'.num_nodes + 1 = (st2.num_nodes + 1) + rt.nodeCount ∧
          s'.num_leaf_nodes = st2.num_leaf_nodes + rt.leafCount := by
        rcases childResult_cases hR with ⟨_, hs⟩ | ⟨_, hs⟩
        · exact ih hs
        · simp only [sealLeaf, Prod.mk.injEq] at hs
          obtain ⟨h1, h2⟩ := hs
          subst h1; subst h2
          simp [NTree.nodeCount, NTree.leafCount]
      subst ht
      simp only [NTree.nodeCount, NTree.leafCount]
      omega

/-- Counter bookkeeping of one resolved child (recursed or sealed). -/
theorem childResult_counts {cfg : Config} {X : List Row} {y : List Int}
    {sel : Selector} {crit ev : List Int → Int} {fuel : Nat} {st : BState}
    {cnd : NodeInfo} {ct : NTree} {st2 : BState}
    (h : childResult cfg X y sel crit ev fuel st cnd = some (ct, st2)) :
    st2.num_nodes + 1 = st.num_nodes + ct.nodeCount ∧
    st2.num_leaf_nodes = st.num_leaf_nodes + ct.leafCount := by
  rcases childResult_cases h with ⟨_, hs⟩ | ⟨_, hs⟩
  · exact _split_counts _ hs
  · simp only [sealLeaf, Prod.mk.injEq] at hs
    obtain ⟨h1, h2⟩ := hs
    subst h1; subst h2
    simp [NTree.nodeCount, NTree.leafCount]

/-- The node data of a resolved child is the constructed child data. -/
theorem childResult_info {cfg : Config} {X : List Row} {y : List Int}
    {sel : Selector} {crit ev : List Int → Int} {fuel : Nat} {st : BState}
    {cnd : NodeInfo} {ct : NTree} {st2 : BState}
    (h : childResult cfg X y sel crit ev fuel st cnd = some (ct, st2)) :
    ct.info = cnd := by
  rcases childResult_cases h with ⟨_, hs⟩ | ⟨_, hs⟩
  · exact _split_info hs
  · simp only [sealLeaf, Prod.mk.injEq] at hs
    rw [hs.1]
    rfl

/-- The two complementary filters of a stable partition split the length. -/
theorem length_filter_not_add {α : Type} (p : α → Bool) (l : List α) :
    (l.filter fun a => !(p a)).length + (l.filter p).length = l.length := by
  induction l with
  | nil => rfl
  | cons a l ih => cases hpa : p a <;> simp [List.filter_cons, hpa] <;> omega

/-- Filtering a mapped list has the same length as filtering the preimage. -/
theorem length_filter_map_eq {α β : Type} (f : α → β) (q : β → Bool)
    (l : List α) :
    ((l.map f).filter q).length = (l.filter fun a => q (f a)).length := by
  induction l with
  | nil => rfl
  | cons a l ih =>
    by_cases hq : q (f a) = true
    · simp [List.filter_cons, hq, ih]
    · simp only [Bool.not_eq_true] at hq
      simp [List.filter_cons, hq, ih]

/-- `sum(train_decisions)` equals the number of indices routed right. -/
theorem true_count_eq (X : List Row) (p : Nat) (v : Int) (vals : List Nat) :
    true_count p v (restrictX X vals) = (right_values X p v vals).length := by
  simp only [true_count, restrictX, right_values]
  exact length_filter_map_eq _ _ _

/-- The right child's stored `size` matches its index list. -/
theorem right_info_size {X : List Row} {p : Nat} {v : Int} {nd : NodeInfo} :
    (right_info X p v nd).size = (right_info X p v nd).values.length :=
  true_count_eq X p v nd.values

/-- The left child's stored `size` matches its index list, provided the
parent's does. -/
theorem left_info_size {X : List Row} {p : Nat} {v : Int} {nd : NodeInfo}
    (h : nd.size = nd.values.length) :
    (left_info X p v nd).size = (left_info X p v nd).values.length := by
  have h1 := true_count_eq X p v nd.values
  have h2 := length_filter_not_add (fun i => decision p v (X.getD i [])) nd.values
  simp only [left_info, left_values, right_values] at h1 h2 ⊢
  omega

/-- Every node of the subtree stores a `size` equal to the length of its
index list. -/
def SizesWF : NTree → Prop
  | .leaf i _ => i.size = i.values.length
  | .internal i _ _ _ l r => i.size = i.values.length ∧ SizesWF l ∧ SizesWF r

/-- `_split` produces size-consistent subtrees from size-consistent nodes. -/
theorem _split_sizes {cfg : Config} {X : List Row} {y : List Int}
    {sel : Selector} {crit ev : List Int → Int} :
    ∀ (fuel : Nat) {st nd t s'},
    _split cfg X y sel crit ev fuel st nd = some (t, s') →
    nd.size = nd.values.length → SizesWF t := by
  intro fuel
  induction fuel with
  | zero => intro st nd t s' h _; simp [_split] at h
  | succ fuel ih =>
    intro st nd t s' h hnd
    rcases _split_succ_inv h with ⟨_, ht, _⟩ | ⟨loss, p, v, lt, st2, rt, _, hL, hR, ht⟩
    · subst ht; exact hnd
    · subst ht
      refine ⟨hnd, ?_, ?_⟩
      · rcases childResult_cases hL with ⟨_, hs⟩ | ⟨_, hs⟩
        · exact ih hs (left_info_size hnd)
        · simp only [sealLeaf, Prod.mk.injEq] at hs
          rw [hs.1]
          exact left_info_size hnd
      · rcases childResult_cases hR with ⟨_, hs⟩ | ⟨_, hs⟩
        · exact ih hs right_info_size
        · simp only [sealLeaf, Prod.mk.injEq] at hs
          rw [hs.1]
          exact right_info_size

/-- The index-partition invariant: at every internal node the left child's
index list is exactly the order-preserving filter of the node's indices
whose rows decide `false`, and the right child's the complementary filter. -/
def PartInv (X : List Row) : NTree → Prop
  | .leaf _ _ => True
  | .internal i _ p v l r =>
      l.info.values = left_values X p v i.values ∧
      r.info.values = right_values X p v i.values ∧
      PartInv X l ∧ PartInv X r

/-- `_split` maintains the index-partition invariant. -/
theorem _split_partInv {cfg : Config} {X : List Row} {y : List Int}
    {sel : Selector} {crit ev : List Int → Int} :
    ∀ (fuel : Nat) {st nd t s'},
    _split cfg X y sel crit ev fuel st nd = some (t, s') → PartInv X t := by
  intro fuel
  induction fuel with
  | zero => intro st nd t s' h; simp [_split] at h
  | succ fuel ih =>
    intro st nd t s' h
    rcases _split_succ_inv h with ⟨_, ht, _⟩ | ⟨loss, p, v, lt, st2, rt, _, hL, hR, ht⟩
    · subst ht; trivial
    · subst ht
      refine ⟨?_, ?_, ?_, ?_⟩
      · rw [childResult_info hL]; rfl
      · rw [childResult_info hR]; rfl
      · rcases childResult_cases hL with ⟨_, hs⟩ | ⟨_, hs⟩
        · exact ih hs
        · simp only [sealLeaf, Prod.mk.injEq] at hs
          rw [hs.1]; trivial
      · rcases childResult_cases hR with ⟨_, hs⟩ | ⟨_, hs⟩
        · exact ih hs
        · simp only [sealLeaf, Prod.mk.injEq] at hs
          rw [hs.1]; trivial

theorem ltLim_some {k m : Nat} : ltLim k (some m) = true ↔ k < m := by
  simp [ltLim]

/-- Decomposition of a passing `_check_criterion`. -/
theorem check_parts {cfg : Config} {st : BState} {nd : NodeInfo}
    (h : _check_criterion cfg st nd = true) :
    ltLim nd.depth cfg.max_depth = true ∧
    ltLim st.num_nodes cfg.max_nodes = true ∧
    ltLim st.num_leaf_nodes cfg.max_leaf_nodes = true ∧ 1 < nd.size := by
  simp only [_check_criterion, Bool.and_eq_true, decide_eq_true_eq] at h
  exact ⟨h.1.1.1, h.1.1.2, h.1.2, h.2⟩

/-- Every child of the subtree sits one level below its parent. -/
def DepthWF : NTree → Prop
  | .leaf _ _ => True
  | .internal i _ _ _ l r =>
      l.info.depth = i.depth + 1 ∧ r.info.depth = i.depth + 1 ∧
      DepthWF l ∧ DepthWF r

/-- `_split` produces depth-consistent subtrees. -/
theorem _split_depthWF {cfg : Config} {X : List Row} {y : List Int}
    {sel : Selector} {crit ev : List Int → Int} :
    ∀ (fuel : Nat) {st nd t s'},
    _split cfg X y sel crit ev fuel st nd = some (t, s') → DepthWF t := by
  intro fuel
  induction fuel with
  | zero => intro st nd t s' h; simp [_split] at h
  | succ fuel ih =>
    intro st nd t s' h
    rcases _split_succ_inv h with ⟨_, ht, _⟩ | ⟨loss, p, v, lt, st2, rt, _, hL, hR, ht⟩
    · subst ht; trivial
    · subst ht
      refine ⟨?_, ?_, ?_, ?_⟩
      · rw [childResult_info hL]; rfl
      · rw [childResult_info hR]; rfl
      · rcases childResult_cases hL with ⟨_, hs⟩ | ⟨_, hs⟩
        · exact ih hs
        · simp only [sealLeaf, Prod.mk.injEq] at hs
          rw [hs.1]; trivial
      · rcases childResult_cases hR with ⟨_, hs⟩ | ⟨_, hs⟩
        · exact ih hs
        · simp only [sealLeaf, Prod.mk.injEq] at hs
          rw [hs.1]; trivial

/-- With `max_depth = some D`, every node that `_split` produces below a
node of depth `d` has depth at most `max D (d + 1)`: the two children are
created unconditionally, and only children strictly below the limit are
recursed into. -/
theorem _split_depth_le {cfg : Config} {X : List Row} {y : List Int}
    {sel : Selector} {crit ev : List Int → Int} {D : Nat}
    (hD : cfg.max_depth = some D) :
    ∀ (fuel : Nat) {st nd t s'},
    _split cfg X y sel crit ev fuel st nd = some (t, s') →
    ∀ s ∈ t.nodes, s.info.depth ≤ max D (nd.depth + 1) := by
  intro fuel
  induction fuel with
  | zero => intro st nd t s' h; simp [_split] at h
  | succ fuel ih =>
    intro st nd t s' h s hs
    rcases _split_succ_inv h with ⟨_, ht, _⟩ | ⟨loss, p, v, lt, st2, rt, _, hL, hR, ht⟩
    · subst ht
      simp only [NTree.nodes, List.mem_singleton] at hs
      subst hs
      simp only [NTree.info]
      omega
    · subst ht
      simp only [NTree.nodes, List.mem_cons, List.mem_append] at hs
      rcases hs with hs | hs | hs
      · subst hs
        simp only [NTree.info]
        omega
      · rcases childResult_cases hL with ⟨hc, hrec⟩ | ⟨_, hseal⟩
        · have hck := (Bool.and_eq_true _ _).mp hc
          have hdepth := ((check_parts hck.2).1)
          rw [hD, ltLim_some] at hdepth
          have hle := ih hrec s hs
          simp only [left_info] at hdepth hle
          omega
        · simp only [sealLeaf, Prod.mk.injEq] at hseal
          rw [hseal.1] at hs
          simp only [NTree.nodes, List.mem_singleton] at hs
          subst hs
          simp only [NTree.info, left_info]
          omega
      · rcases childResult_cases hR with ⟨hc, hrec⟩ | ⟨_, hseal⟩
        · have hck := (Bool.and_eq_true _ _).mp hc
          have hdepth := ((check_parts hck.2).1)
          rw [hD, ltLim_some] at hdepth
          have hle := ih hrec s hs
          simp only [right_info] at hdepth hle
          omega
        · simp only [sealLeaf, Prod.mk.injEq] at hseal
          rw [hseal.1] at hs
          simp only [NTree.nodes, List.mem_singleton] at hs
          subst hs
          simp only [NTree.info, right_info]
          omega

/-- The gating discipline that `max_leaf_nodes = some L` actually enforces
over a subtree built while `base` leaves were already sealed: a child is
only recursed into (is internal) when the number of leaves sealed before
it — `base` plus the leaves of the completed left sibling subtree — is
strictly below `L`.  Sealing itself is never gated. -/
def Gate (L : Nat) : Nat → NTree → Prop
  | _, .leaf _ _ => True
  | base, .internal _ _ _ _ l r =>
      (l.is_leaf = false → base < L) ∧
      (r.is_leaf = false → base + l.leafCount < L) ∧
      Gate L base l ∧ Gate L (base + l.leafCount) r

/-- `_split` obeys the leaf-count gating discipline. -/
theorem _split_gate {cfg : Config} {X : List Row} {y : List Int}
    {sel : Selector} {crit ev : List Int → Int} {L : Nat}
    (hL : cfg.max_leaf_nodes = some L) :
    ∀ (fuel : Nat) {st nd t s'},
    _split cfg X y sel crit ev fuel st nd = some (t, s') →
    Gate L st.num_leaf_nodes t := by
  intro fuel
  induction fuel with
  | zero => intro st nd t s' h; simp [_split] at h
  | succ fuel ih =>
    intro st nd t s' h
    rcases _split_succ_inv h with ⟨_, ht, _⟩ | ⟨loss, p, v, lt, st2, rt, _, hLr, hRr, ht⟩
    · subst ht; trivial
    · subst ht
      have hlf2 : st2.num_leaf_nodes = st.num_leaf_nodes + lt.leafCount :=
        (childResult_counts hLr).2
      refine ⟨?_, ?_, ?_, ?_⟩
      · intro hnl
        rcases childResult_cases hLr with ⟨hc, _⟩ | ⟨_, hseal⟩
        · have hck := (Bool.and_eq_true _ _).mp hc
          have := (check_parts hck.2).2.2.1
          rw [hL, ltLim_some] at this
          exact this
        · simp only [sealLeaf, Prod.mk.injEq] at hseal
          rw [hseal.1] at hnl
          simp [NTree.is_leaf] at hnl
      · intro hnr
        rcases childResult_cases hRr with ⟨hc, _⟩ | ⟨_, hseal⟩
        · have hck := (Bool.and_eq_true _ _).mp hc
          have h3 := (check_parts hck.2).2.2.1
          rw [hL, ltLim_some] at h3
          dsimp only at h3
          omega
        · simp only [sealLeaf, Prod.mk.injEq] at hseal
          rw [hseal.1] at hnr
          simp [NTree.is_leaf] at hnr
      · rcases childResult_cases hLr with ⟨_, hrec⟩ | ⟨_, hseal⟩
        · have hg := ih hrec
          exact hg
        · simp only [sealLeaf, Prod.mk.injEq] at hseal
          rw [hseal.1]; trivial
      · rcases childResult_cases hRr with ⟨_, hrec⟩ | ⟨_, hseal⟩
        · have hg := ih hrec
          dsimp only at hg
          rw [hlf2] at hg
          exact hg
        · simp only [sealLeaf, Prod.mk.injEq] at hseal
          rw [hseal.1]; trivial

/-- Forward evaluation: selector rule plus two resolved children yield the
internal node. -/
theorem _split_succ_construct {cfg : Config} {X : List Row} {y : List Int}
    {sel : Selector} {crit ev : List Int → Int} {fuel : Nat} {st : BState}
    {nd : NodeInfo} {loss : Int} {p : Nat} {v : Int} {lt rt : NTree}
    {st2 st4 : BState}
    (hsel : sel (restrictX X nd.values) (restrictY y nd.values) = some (loss, p, v))
    (hL : childResult cfg X y sel crit ev fuel ⟨st.num_nodes + 1, st.num_leaf_nodes⟩
      (left_info X p v nd) = some (lt, st2))
    (hR : childResult cfg X y sel crit ev fuel ⟨st2.num_nodes + 1, st2.num_leaf_nodes⟩
      (right_info X p v nd) = some (rt, st4)) :
    _split cfg X y sel crit ev (fuel + 1) st nd =
      some (NTree.internal nd loss p v lt rt, st4) := by
  have hL' := hL
  have hR' := hR
  simp only [childResult] at hL' hR'
  simp only [_split, hsel, hL', hR']

/-- Forward evaluation: an unresolved left child aborts the call. -/
theorem _split_succ_left_none {cfg : Config} {X : List Row} {y : List Int}
    {sel : Selector} {crit ev : List Int → Int} {fuel : Nat} {st : BState}
    {nd : NodeInfo} {loss : Int} {p : Nat} {v : Int}
    (hsel : sel (restrictX X nd.values) (restrictY y nd.values) = some (loss, p, v))
    (hL : childResult cfg X y sel crit ev fuel ⟨st.num_nodes + 1, st.num_leaf_nodes⟩
      (left_info X p v nd) = none) :
    _split cfg X y sel crit ev (fuel + 1) st nd = none := by
  have hL' := hL
  simp only [childResult] at hL'
  simp only [_split, hsel, hL']

/-- Forward evaluation: an unresolved right child aborts the call. -/
theorem _split_succ_right_none {cfg : Config} {X : List Row} {y : List Int}
    {sel : Selector} {crit ev : List Int → Int} {fuel : Nat} {st : BState}
    {nd : NodeInfo} {loss : Int} {p : Nat} {v : Int} {lt : NTree} {st2 : BState}
    (hsel : sel (restrictX X nd.values) (restrictY y nd.values) = some (loss, p, v))
    (hL : childResult cfg X y sel crit ev fuel ⟨st.num_nodes + 1, st.num_leaf_nodes⟩
      (left_info X p v nd) = some (lt, st2))
    (hR : childResult cfg X y sel crit ev fuel ⟨st2.num_nodes + 1, st2.num_leaf_nodes⟩
      (right_info X p v nd) = none) :
    _split cfg X y sel crit ev (fuel + 1) st nd = none := by
  have hL' := hL
  have hR' := hR
  simp only [childResult] at hL' hR'
  simp only [_split, hsel, hL', hR']

/-- The two sides of the stable partition split the node's index count. -/
theorem left_right_length (X : List Row) (p : Nat) (v : Int) (vals : List Nat) :
    (left_values X p v vals).length + (right_values X p v vals).length
      = vals.length := by
  simp only [left_values, right_values]
  exact length_filter_not_add _ _

/-- Modelled from the spec: a selector result means a split that improves
on leaving the node a leaf, so it routes at least one restricted row to
each side. -/
def ProperSel (sel : Selector) : Prop :=
  ∀ Xs ys lo p v, sel Xs ys = some (lo, p, v) →
    (∃ x ∈ Xs, decision p v x = true) ∧ (∃ x ∈ Xs, decision p v x = false)

/-- With a proper selector, `_split` succeeds whenever the fuel exceeds
the node's sample count: every recursive call strictly shrinks the set. -/
theorem _split_total (cfg : Config) (X : List Row) (y : List Int)
    (sel : Selector) (crit ev : List Int → Int) (hps : ProperSel sel) :
    ∀ (fuel : Nat) (st : BState) (nd : NodeInfo),
    nd.size = nd.values.length → nd.values.length < fuel →
    (_split cfg X y sel crit ev fuel st nd).isSome = true := by
  intro fuel
  induction fuel with
  | zero => intro st nd _ hlt; exact absurd hlt (Nat.not_lt_zero _)
  | succ fuel ih =>
    intro st nd hsz hlt
    cases hsel : sel (restrictX X nd.values) (restrictY y nd.values) with
    | none => simp [_split, hsel]
    | some lpv =>
      obtain ⟨lo, p, v⟩ := lpv
      obtain ⟨⟨xt, hxt, hxtd⟩, ⟨xf, hxf, hxfd⟩⟩ := hps _ _ _ _ _ hsel
      simp only [restrictX] at hxt hxf
      obtain ⟨it, hit, rfl⟩ := List.mem_map.mp hxt
      obtain ⟨jf, hjf, rfl⟩ := List.mem_map.mp hxf
      have hmemR : it ∈ right_values X p v nd.values :=
        List.mem_filter.mpr ⟨hit, hxtd⟩
      have hmemL : jf ∈ left_values X p v nd.values :=
        List.mem_filter.mpr ⟨hjf, by simp only [hxfd, Bool.not_false]⟩
      have hRpos : 0 < (right_values X p v nd.values).length :=
        List.length_pos_of_mem hmemR
      have hLpos : 0 < (left_values X p v nd.values).length :=
        List.length_pos_of_mem hmemL
      have hlen := left_right_length X p v nd.values
      have hLsome : ∀ (s : BState),
          (childResult cfg X y sel crit ev fuel s (left_info X p v nd)).isSome
            = true := by
        intro s
        unfold childResult
        by_cases hc : (!(_is_pure crit y (left_info X p v nd)) &&
            _check_criterion cfg s (left_info X p v nd)) = true
        · rw [if_pos hc]
          refine ih _ _ (left_info_size hsz) ?_
          show (left_values X p v nd.values).length < fuel
          omega
        · rw [if_neg hc]; rfl
      have hRsome : ∀ (s : BState),
          (childResult cfg X y sel crit ev fuel s (right_info X p v nd)).isSome
            = true := by
        intro s
        unfold childResult
        by_cases hc : (!(_is_pure crit y (right_info X p v nd)) &&
            _check_criterion cfg s (right_info X p v nd)) = true
        · rw [if_pos hc]
          refine ih _ _ right_info_size ?_
          show (right_values X p v nd.values).length < fuel
          omega
        · rw [if_neg hc]; rfl
      obtain ⟨⟨lt, st2⟩, hLr⟩ := Option.isSome_iff_exists.mp
        (hLsome ⟨st.num_nodes + 1, st.num_leaf_nodes⟩)
      obtain ⟨⟨rt, st4⟩, hRr⟩ := Option.isSome_iff_exists.mp
        (hRsome ⟨st2.num_nodes + 1, st2.num_leaf_nodes⟩)
      rw [_split_succ_construct hsel hLr hRr]
      rfl

/-- With unbounded `max_nodes` and `max_leaf_nodes`, `_check_criterion`
does not depend on the counters. -/
theorem check_state_indep {cfg : Config} {nd : NodeInfo} (st st' : BState)
    (h1 : cfg.max_nodes = none) (h2 : cfg.max_leaf_nodes = none) :
    _check_criterion cfg st nd = _check_criterion cfg st' nd := by
  simp [_check_criterion, h1, h2, ltLim]

/-- With unbounded `max_nodes` and `max_leaf_nodes`, the tree `_split`
builds does not depend on the incoming counter state. -/
theorem _split_state_indep (cfg : Config) (X : List Row) (y : List Int)
    (sel : Selector) (crit ev : List Int → Int)
    (h1 : cfg.max_nodes = none) (h2 : cfg.max_leaf_nodes = none) :
    ∀ (fuel : Nat) (nd : NodeInfo) (st st' : BState),
    (_split cfg X y sel crit ev fuel st nd).map Prod.fst =
    (_split cfg X y sel crit ev fuel st' nd).map Prod.fst := by
  intro fuel
  induction fuel with
  | zero => intro nd st st'; simp [_split]
  | succ fuel ih =>
    intro nd st st'
    have hchild : ∀ (cnd : NodeInfo) (s s' : BState),
        (childResult cfg X y sel crit ev fuel s cnd).map Prod.fst =
        (childResult cfg X y sel crit ev fuel s' cnd).map Prod.fst := by
      intro cnd s s'
      unfold childResult
      rw [show _check_criterion cfg s cnd = _check_criterion cfg s' cnd from
        check_state_indep s s' h1 h2]
      by_cases hc : (!(_is_pure crit y cnd) && _check_criterion cfg s' cnd) = true
      · rw [if_pos hc, if_pos hc]
        exact ih cnd s s'
      · rw [if_neg hc, if_neg hc]
        simp [sealLeaf]
    cases hsel : sel (restrictX X nd.values) (restrictY y nd.values) with
    | none => simp [_split, hsel, sealLeaf]
    | some lpv =>
      obtain ⟨lo, p, v⟩ := lpv
      have hcl := hchild (left_info X p v nd) ⟨st.num_nodes + 1, st.num_leaf_nodes⟩
        ⟨st'.num_nodes + 1, st'.num_leaf_nodes⟩
      rcases hA : childResult cfg X y sel crit ev fuel
          ⟨st.num_nodes + 1, st.num_leaf_nodes⟩ (left_info X p v nd) with _ | ⟨lt, st2⟩ <;>
        rcases hB : childResult cfg X y sel crit ev fuel
          ⟨st'.num_nodes + 1, st'.num_leaf_nodes⟩ (left_info X p v nd) with _ | ⟨lt', st2'⟩
      · rw [_split_succ_left_none hsel hA, _split_succ_left_none hsel hB]
      · rw [hA, hB] at hcl; simp at hcl
      · rw [hA, hB] at hcl; simp at hcl
      · rw [hA, hB] at hcl
        simp at hcl
        subst hcl
        have hcr := hchild (right_info X p v nd) ⟨st2.num_nodes + 1, st2.num_leaf_nodes⟩
          ⟨st2'.num_nodes + 1, st2'.num_leaf_nodes⟩
        rcases hC : childResult cfg X y sel crit ev fuel
            ⟨st2.num_nodes + 1, st2.num_leaf_nodes⟩ (right_info X p v nd) with _ | ⟨rt, st4⟩ <;>
          rcases hD : childResult cfg X y sel crit ev fuel
            ⟨st2'.num_nodes + 1, st2'.num_leaf_nodes⟩ (right_info X p v nd) with _ | ⟨rt', st4'⟩
        · rw [_split_succ_right_none hsel hA hC, _split_succ_right_none hsel hB hD]
        · rw [hC, hD] at hcr; simp at hcr
        · rw [hC, hD] at hcr; simp at hcr
        · rw [hC, hD] at hcr
          simp at hcr
          subst hcr
          rw [_split_succ_construct hsel hA hC, _split_succ_construct hsel hB hD]
          rfl

/-- With a selector that reports no viable split on every singleton
subset, no node of size one is ever internal. -/
theorem _split_singleton {cfg : Config} {X : List Row} {y : List Int}
    {sel : Selector} {crit ev : List Int → Int}
    (hs1 : ∀ Xs ys, Xs.length = 1 → sel Xs ys = none) :
    ∀ (fuel : Nat) {st nd t s'},
    _split cfg X y sel crit ev fuel st nd = some (t, s') →
    nd.size = nd.values.length →
    ∀ s ∈ t.nodes, s.info.size = 1 → s.is_leaf = true := by
  intro fuel
  induction fuel with
  | zero => intro st nd t s' h; simp [_split] at h
  | succ fuel ih =>
    intro st nd t s' h hsz s hs hone
    rcases _split_succ_inv h with ⟨_, ht, _⟩ | ⟨loss, p, v, lt, st2, rt, hsel, hL, hR, ht⟩
    · subst ht
      simp only [NTree.nodes, List.mem_singleton] at hs
      subst hs; rfl
    · subst ht
      simp only [NTree.nodes, List.mem_cons, List.mem_append] at hs
      rcases hs with hs | hs | hs
      · subst hs
        simp only [NTree.info] at hone
        have hlen : (restrictX X nd.values).length = 1 := by
          simp only [restrictX, List.length_map]
          omega
        rw [hs1 _ _ hlen] at hsel
        simp at hsel
      · rcases childResult_cases hL with ⟨_, hrec⟩ | ⟨_, hseal⟩
        · exact ih hrec (left_info_size hsz) s hs hone
        · simp only [sealLeaf, Prod.mk.injEq] at hseal
          rw [hseal.1] at hs
          simp only [NTree.nodes, List.mem_singleton] at hs
          subst hs; rfl
      · rcases childResult_cases hR with ⟨_, hrec⟩ | ⟨_, hseal⟩
        · exact ih hrec right_info_size s hs hone
        · simp only [sealLeaf, Prod.mk.injEq] at hseal
          rw [hseal.1] at hs
          simp only [NTree.nodes, List.mem_singleton] at hs
          subst hs; rfl

/-- Lifting the partition invariant to an arbitrary internal node of the
subtree. -/
theorem partInv_mem {X : List Row} :
    ∀ {t : NTree}, PartInv X t →
    ∀ {i : NodeInfo} {lo : Int} {p : Nat} {v : Int} {l r : NTree},
    NTree.internal i lo p v l r ∈ t.nodes →
    l.info.values = left_values X p v i.values ∧
    r.info.values = right_values X p v i.values := by
  intro t
  induction t with
  | leaf i0 pr => intro _ i lo p v l r hm; simp [NTree.nodes] at hm
  | internal i0 lo0 p0 v0 l0 r0 ihl ihr =>
    intro hinv i lo p v l r hm
    obtain ⟨h1, h2, hl, hr⟩ := hinv
    simp only [NTree.nodes, List.mem_cons, List.mem_append] at hm
    rcases hm with heq | hm | hm
    · simp only [NTree.internal.injEq] at heq
      obtain ⟨rfl, rfl, rfl, rfl, rfl, rfl⟩ := heq
      exact ⟨h1, h2⟩
    · exact ihl hl hm
    · exact ihr hr hm

/-- Lifting the depth relation to an arbitrary internal node. -/
theorem depthWF_mem :
    ∀ {t : NTree}, DepthWF t →
    ∀ {i : NodeInfo} {lo : Int} {p : Nat} {v : Int} {l r : NTree},
    NTree.internal i lo p v l r ∈ t.nodes →
    l.info.depth = i.depth + 1 ∧ r.info.depth = i.depth + 1 := by
  intro t
  induction t with
  | leaf i0 pr => intro _ i lo p v l r hm; simp [NTree.nodes] at hm
  | internal i0 lo0 p0 v0 l0 r0 ihl ihr =>
    intro hinv i lo p v l r hm
    obtain ⟨h1, h2, hl, hr⟩ := hinv
    simp only [NTree.nodes, List.mem_cons, List.mem_append] at hm
    rcases hm with heq | hm | hm
    · simp only [NTree.internal.injEq] at heq
      obtain ⟨rfl, rfl, rfl, rfl, rfl, rfl⟩ := heq
      exact ⟨h1, h2⟩
    · exact ihl hl hm
    · exact ihr hr hm

/-- Inversion of a successful `fit`. -/
theorem fit_inv {t : DecisionTree} {fuel : Nat} {X : List Row} {y : List Int}
    {sel : Selector} {crit ev : List Int → Int} {t' : DecisionTree}
    (h : fit t fuel X y sel crit ev = some t') :
    ∃ tr st, _split t.cfg X y sel crit ev fuel ⟨t.num_nodes + 1, t.num_leaf_nodes⟩
        ⟨List.range X.length, X.length, 1⟩ = some (tr, st) ∧
      t' = ⟨some tr, st.num_nodes, st.num_leaf_nodes, t.cfg⟩ := by
  unfold fit at h
  split at h
  · exact absurd h (by simp)
  · rename_i x tr st heq
    exact ⟨tr, st, heq, (Option.some.inj h).symm⟩

/-- `selMid` reports no viable split on every singleton subset. -/
theorem selMid_singleton : ∀ (Xs : List Row) (ys : List Int),
    Xs.length = 1 → selMid Xs ys = none := by
  intro Xs ys h
  rcases Xs with _ | ⟨x, tl⟩
  · simp at h
  · rcases tl with _ | ⟨x2, tl⟩
    · simp [selMid]
    · simp at h

/-- The always-`none` selector is trivially proper. -/
theorem selNone_proper : ProperSel selNone := by
  intro Xs ys lo p v h
  simp [selNone] at h

/-- The tree instance after fitting `X4`, `y4` under `max_leaf_nodes = 2`. -/
def dL2 : DecisionTree :=
  (fit (mkTree cfgL2) 6 X4 y4 selMid critEq evalHead).getD (mkTree cfgL2)

/-- Its root. -/
def rL2 : NTree := dL2.root.getD (NTree.leaf ⟨[], 0, 0⟩ 0)

/-- The tree instance after fitting the single sample `[[5]]`, `[1]`. -/
def d51 : DecisionTree :=
  (fit (mkTree cfgFree) 2 [[5]] [1] selMid critEq evalHead).getD (mkTree cfgFree)

/-- Its root. -/
def r51 : NTree := d51.root.getD (NTree.leaf ⟨[], 0, 0⟩ 0)

/-- The tree instance after fitting `X4`, `y04` under `max_depth = 1`. -/
def dD1 : DecisionTree :=
  (fit (mkTree cfgD1) 6 X4 y04 selMid critEq evalHead).getD (mkTree cfgD1)

/-- Its root. -/
def rD1 : NTree := dD1.root.getD (NTree.leaf ⟨[], 0, 0⟩ 0)

/-- An unfitted instance carrying stale counters, as after earlier fits. -/
def dHi : DecisionTree := ⟨none, 7, 5, cfgFree⟩

/-- Claim C1: for every internal node of a fitted tree, the builder
partitions the node's `sample_indices` into the two children's lists as
disjoint ordered subsequences whose union (as sets) is the node's index
set, order-preserving (stable partition): an index goes left iff the
node's decision on that sample's feature row is false, right iff true. -/
theorem fit_partition_invariant (t : DecisionTree) (fuel : Nat) (X : List Row)
    (y : List Int) (sel : Selector) (crit ev : List Int → Int)
    (t' : DecisionTree) (tr : NTree)
    (hfit : fit t fuel X y sel crit ev = some t') (hroot : t'.root = some tr) :
    ∀ i lo p v l r, NTree.internal i lo p v l r ∈ tr.nodes →
      l.info.values = i.values.filter (fun j => !(decision p v (X.getD j []))) ∧
      r.info.values = i.values.filter (fun j => decision p v (X.getD j [])) ∧
      l.info.values.Sublist i.values ∧
      r.info.values.Sublist i.values ∧
      (∀ j, j ∈ i.values ↔ j ∈ l.info.values ∨ j ∈ r.info.values) ∧
      (∀ j, ¬ (j ∈ l.info.values ∧ j ∈ r.info.values)) := by
  obtain ⟨tr0, st, hsp, ht'⟩ := fit_inv hfit
  have heq : tr = tr0 := by rw [ht'] at hroot; exact (Option.some.inj hroot).symm
  subst heq
  have hpi := _split_partInv _ hsp
  intro i lo p v l r hm
  obtain ⟨hlv, hrv⟩ := partInv_mem hpi hm
  refine ⟨hlv, hrv, ?_, ?_, ?_, ?_⟩
  · rw [hlv]; exact List.filter_sublist _
  · rw [hrv]; exact List.filter_sublist _
  · intro j
    rw [hlv, hrv]
    simp only [left_values, right_values, List.mem_filter]
    constructor
    · intro hj
      by_cases hd : decision p v (X.getD j []) = true
      · exact Or.inr ⟨hj, hd⟩
      · simp only [Bool.not_eq_true] at hd
        exact Or.inl ⟨hj, by simp only [hd, Bool.not_false]⟩
    · rintro (⟨hj, _⟩ | ⟨hj, _⟩) <;> exact hj
  · rintro j ⟨hjl, hjr⟩
    rw [hlv] at hjl
    rw [hrv] at hjr
    simp only [left_values, right_values, List.mem_filter] at hjl hjr
    rw [hjr.2] at hjl
    simp at hjl

/-- Witness for C1 at the concrete `max_leaf_nodes = 2` scenario fit. -/
theorem fit_partition_invariant_witness :
    fit (mkTree cfgL2) 6 X4 y4 selMid critEq evalHead = some dL2 ∧
    dL2.root = some rL2 ∧
    (∀ i lo p v l r, NTree.internal i lo p v l r ∈ rL2.nodes →
      l.info.values = i.values.filter (fun j => !(decision p v (X4.getD j []))) ∧
      r.info.values = i.values.filter (fun j => decision p v (X4.getD j [])) ∧
      l.info.values.Sublist i.values ∧
      r.info.values.Sublist i.values ∧
      (∀ j, j ∈ i.values ↔ j ∈ l.info.values ∨ j ∈ r.info.values) ∧
      (∀ j, ¬ (j ∈ l.info.values ∧ j ∈ r.info.values))) :=
  ⟨by decide, by decide,
    fit_partition_invariant (mkTree cfgL2) 6 X4 y4 selMid critEq evalHead dL2 rL2
      (by decide) (by decide)⟩

/-- Claim C2 counterexample: fitting `X4`, `y4` with `max_leaf_nodes = 2`
produces 3 leaves (both by counter and by traversal), because sealing
pending children is never gated by the leaf limit. -/
theorem max_leaf_nodes_exceeded :
    cfgL2.max_leaf_nodes = some 2 ∧
    (fit (mkTree cfgL2) 6 X4 y4 selMid critEq evalHead).map
      DecisionTree.num_leaf_nodes = some 3 ∧
    ((fit (mkTree cfgL2) 6 X4 y4 selMid critEq evalHead).map
      fun u => u.root.map NTree.leafCount) = some (some 3) ∧
    ¬ ((3 : Nat) ≤ 2) := by decide

/-- Claim C2 (amended): `max_leaf_nodes = L` does not cap the number of
leaves; it only gates recursion.  Every fitted tree satisfies the `Gate`
discipline: a child is internal only if the leaf count sealed before it
(the pre-fit counter plus the leaves of completed earlier subtrees in the
builder's depth-first order) was strictly below `L`; sealing itself is
unchecked, so the final count can exceed `L`. -/
theorem max_leaf_nodes_gates_recursion (t : DecisionTree) (fuel : Nat)
    (X : List Row) (y : List Int) (sel : Selector) (crit ev : List Int → Int)
    (t' : DecisionTree) (tr : NTree) (L : Nat)
    (hL : t.cfg.max_leaf_nodes = some L)
    (hfit : fit t fuel X y sel crit ev = some t') (hroot : t'.root = some tr) :
    Gate L t.num_leaf_nodes tr := by
  obtain ⟨tr0, st, hsp, ht'⟩ := fit_inv hfit
  have heq : tr = tr0 := by rw [ht'] at hroot; exact (Option.some.inj hroot).symm
  subst heq
  exact _split_gate hL _ hsp

/-- Witness for the amended C2 at the concrete scenario. -/
theorem max_leaf_nodes_gates_recursion_witness :
    cfgL2.max_leaf_nodes = some 2 ∧
    fit (mkTree cfgL2) 6 X4 y4 selMid critEq evalHead = some dL2 ∧
    dL2.root = some rL2 ∧ Gate 2 0 rL2 :=
  ⟨rfl, by decide, by decide,
    max_leaf_nodes_gates_recursion (mkTree cfgL2) 6 X4 y4 selMid critEq evalHead
      dL2 rL2 2 rfl (by decide) (by decide)⟩

/-- Claim C3: `fit` never resets the counters, so a second fit on the same
instance leaves `num_nodes = num_leaf_nodes = 2` while the rebuilt
one-sample tree has exactly 1 node and 1 leaf by traversal. -/
theorem refit_counter_drift :
    ((fit (mkTree cfgFree) 2 [[5]] [1] selNone critEq evalHead).bind
      fun u => fit u 2 [[5]] [1] selNone critEq evalHead) =
      some ⟨some (NTree.leaf ⟨[0], 1, 1⟩ 1), 2, 2, cfgFree⟩ ∧
    NTree.nodeCount (NTree.leaf ⟨[0], 1, 1⟩ 1) = 1 ∧
    NTree.leafCount (NTree.leaf ⟨[0], 1, 1⟩ 1) = 1 ∧
    ¬ ((2 : Nat) = 1) := by decide

/-- Claim C4 counterexample: with `max_depth = 1` the root still splits,
so the fitted tree contains nodes of depth 2 > 1. -/
theorem max_depth_exceeded :
    cfgD1.max_depth = some 1 ∧
    (fit (mkTree cfgD1) 6 X4 y04 selMid critEq evalHead).map
      (fun u => u.root.map fun r => r.nodes.map fun s => s.info.depth)
      = some (some [1, 2, 2]) ∧
    ¬ ((2 : Nat) ≤ 1) := by decide

/-- Claim C4 (amended): with `max_depth = some D` the root has depth 1,
every child sits one level below its parent, and no node's depth exceeds
`max D 2` — depth 2 is reachable for any `D` because the root split is not
gated by the depth check, which only gates the children's recursion. -/
theorem max_depth_bound (t : DecisionTree) (fuel : Nat) (X : List Row)
    (y : List Int) (sel : Selector) (crit ev : List Int → Int)
    (t' : DecisionTree) (tr : NTree) (D : Nat)
    (hD : t.cfg.max_depth = some D)
    (hfit : fit t fuel X y sel crit ev = some t') (hroot : t'.root = some tr) :
    tr.info.depth = 1 ∧
    (∀ i lo p v l r, NTree.internal i lo p v l r ∈ tr.nodes →
      l.info.depth = i.depth + 1 ∧ r.info.depth = i.depth + 1) ∧
    (∀ s ∈ tr.nodes, s.info.depth ≤ max D 2) := by
  obtain ⟨tr0, st, hsp, ht'⟩ := fit_inv hfit
  have heq : tr = tr0 := by rw [ht'] at hroot; exact (Option.some.inj hroot).symm
  subst heq
  refine ⟨?_, ?_, ?_⟩
  · rw [_split_info hsp]
  · intro i lo p v l r hm
    exact depthWF_mem (_split_depthWF _ hsp) hm
  · intro s hs
    exact _split_depth_le hD _ hsp s hs

/-- Witness for the amended C4 at the `max_depth = 1` scenario. -/
theorem max_depth_bound_witness :
    cfgD1.max_depth = some 1 ∧
    fit (mkTree cfgD1) 6 X4 y04 selMid critEq evalHead = some dD1 ∧
    dD1.root = some rD1 ∧
    (rD1.info.depth = 1 ∧
      (∀ i lo p v l r, NTree.internal i lo p v l r ∈ rD1.nodes →
        l.info.depth = i.depth + 1 ∧ r.info.depth = i.depth + 1) ∧
      (∀ s ∈ rD1.nodes, s.info.depth ≤ max 1 2)) :=
  ⟨rfl, by decide, by decide,
    max_depth_bound (mkTree cfgD1) 6 X4 y04 selMid critEq evalHead dD1 rD1 1
      rfl (by decide) (by decide)⟩

/-- Claim C5: with a proper selector — the spec's reading of the
no-viable-split sentinel: a returned split routes at least one restricted
sample to each side — `fit` terminates on every input; fuel `n + 1`
suffices for `n` samples because every recursion strictly shrinks the
child's index set. -/
theorem fit_terminates (t : DecisionTree) (X : List Row) (y : List Int)
    (sel : Selector) (crit ev : List Int → Int) (hps : ProperSel sel) :
    (fit t (X.length + 1) X y sel crit ev).isSome = true := by
  unfold fit
  have h := _split_total t.cfg X y sel crit ev hps (X.length + 1)
      ⟨t.num_nodes + 1, t.num_leaf_nodes⟩
      ⟨List.range X.length, X.length, 1⟩ (by simp)
      (by simp only [List.length_range]; omega)
  obtain ⟨⟨tr, st⟩, hsp⟩ := Option.isSome_iff_exists.mp h
  rw [hsp]
  rfl

/-- Witness for C5 at a concrete one-sample fit. -/
theorem fit_terminates_witness :
    ProperSel selNone ∧
    (fit (mkTree cfgFree) 2 [[5]] [1] selNone critEq evalHead).isSome = true :=
  ⟨selNone_proper,
    fit_terminates (mkTree cfgFree) [[5]] [1] selNone critEq evalHead selNone_proper⟩

/-- Claim C6: a node with `size = 1` is never split.  First conjunct: with
any selector that reports no viable split on singleton subsets (as the
spec's selector does), every size-one node of any fitted tree is a leaf —
including the root, which is processed unconditionally and sealed only via
the selector's sentinel.  Second conjunct: the spec scenario — fitting the
single sample `X = [[5]]`, `y = [1]` seals the root directly, giving 1
node and 1 leaf. -/
theorem size_one_never_split :
    (∀ (t : DecisionTree) (fuel : Nat) (X : List Row) (y : List Int)
      (sel : Selector) (crit ev : List Int → Int) (t' : DecisionTree) (tr : NTree),
      (∀ Xs ys, Xs.length = 1 → sel Xs ys = none) →
      fit t fuel X y sel crit ev = some t' → t'.root = some tr →
      ∀ s ∈ tr.nodes, s.info.size = 1 → s.is_leaf = true) ∧
    fit (mkTree cfgFree) 2 [[5]] [1] selMid critEq evalHead =
      some ⟨some (NTree.leaf ⟨[0], 1, 1⟩ 1), 1, 1, cfgFree⟩ := by
  constructor
  · intro t fuel X y sel crit ev t' tr hs1 hfit hroot s hs hone
    obtain ⟨tr0, st, hsp, ht'⟩ := fit_inv hfit
    have heq : tr = tr0 := by rw [ht'] at hroot; exact (Option.some.inj hroot).symm
    subst heq
    exact _split_singleton hs1 _ hsp (by simp) s hs hone
  · decide

/-- Witness for C6 at the single-sample scenario with `selMid`. -/
theorem size_one_never_split_witness :
    (∀ Xs ys, Xs.length = 1 → selMid Xs ys = none) ∧
    fit (mkTree cfgFree) 2 [[5]] [1] selMid critEq evalHead = some d51 ∧
    d51.root = some r51 ∧
    (∀ s ∈ r51.nodes, s.info.size = 1 → s.is_leaf = true) :=
  ⟨selMid_singleton, by decide, by decide,
    size_one_never_split.1 (mkTree cfgFree) 2 [[5]] [1] selMid critEq evalHead
      d51 r51 selMid_singleton (by decide) (by decide)⟩

/-- Claim C7 counterexample: two consecutive `fit` calls on the same
instance with identical input and the deterministic selector `selMid`
yield structurally different trees when `max_leaf_nodes = 2`, because the
first fit's counters are not reset. -/
theorem refit_not_deterministic :
    ((fit (mkTree cfgL2) 6 X4 y4 selMid critEq evalHead).bind
      fun u => fit u 6 X4 y4 selMid critEq evalHead).map DecisionTree.root ≠
    (fit (mkTree cfgL2) 6 X4 y4 selMid critEq evalHead).map DecisionTree.root := by
  decide

/-- Claim C7 (amended): with unbounded `max_nodes` and `max_leaf_nodes`
the built tree does not depend on the instance's counters, so any two
`fit` calls on identically configured instances — in particular a re-fit
of an already fitted instance — produce structurally identical trees
(same rules, partitions and predictions); with finite limits the stale
counters can change the second tree. -/
theorem fit_deterministic_unbounded (t1 t2 : DecisionTree) (fuel : Nat)
    (X : List Row) (y : List Int) (sel : Selector) (crit ev : List Int → Int)
    (hcfg : t1.cfg = t2.cfg) (h1 : t1.cfg.max_nodes = none)
    (h2 : t1.cfg.max_leaf_nodes = none) :
    (fit t1 fuel X y sel crit ev).map DecisionTree.root =
    (fit t2 fuel X y sel crit ev).map DecisionTree.root := by
  unfold fit
  rw [← hcfg]
  have hind := _split_state_indep t1.cfg X y sel crit ev h1 h2 fuel
      ⟨List.range X.length, X.length, 1⟩
      ⟨t1.num_nodes + 1, t1.num_leaf_nodes⟩ ⟨t2.num_nodes + 1, t2.num_leaf_nodes⟩
  rcases hA : _split t1.cfg X y sel crit ev fuel ⟨t1.num_nodes + 1, t1.num_leaf_nodes⟩
      ⟨List.range X.length, X.length, 1⟩ with _ | ⟨tr, st⟩ <;>
    rcases hB : _split t1.cfg X y sel crit ev fuel ⟨t2.num_nodes + 1, t2.num_leaf_nodes⟩
      ⟨List.range X.length, X.length, 1⟩ with _ | ⟨tr', st'⟩
  · rfl
  · rw [hA, hB] at hind; simp at hind
  · rw [hA, hB] at hind; simp at hind
  · rw [hA, hB] at hind
    simp at hind
    subst hind
    rfl

/-- Witness for the amended C7: a fresh instance and one with stale
counters build the same tree under the unbounded configuration. -/
theorem fit_deterministic_unbounded_witness :
    (mkTree cfgFree).cfg = dHi.cfg ∧
    (mkTree cfgFree).cfg.max_nodes = none ∧
    (mkTree cfgFree).cfg.max_leaf_nodes = none ∧
    (fit (mkTree cfgFree) 6 X4 y4 selMid critEq evalHead).map DecisionTree.root =
    (fit dHi 6 X4 y4 selMid critEq evalHead).map DecisionTree.root :=
  ⟨rfl, rfl, rfl,
    fit_deterministic_unbounded (mkTree cfgFree) dHi 6 X4 y4 selMid critEq evalHead
      rfl rfl rfl⟩

/-- Claim C8 counterexample: on an unfitted instance (root absent) the
zero-row query does not fail — it returns the empty prediction list. -/
theorem predict_unfitted_empty_returns :
    (mkTree cfgFree).root = none ∧
    predict (mkTree cfgFree) [] = some [] := by decide

/-- Claim C8 (amended): calling `predict` before any `fit` (root absent)
fails — the absent root is dereferenced, modelled as `none` — for every
query input with at least one row; no prediction list is returned. -/
theorem predict_unfitted_fails (t : DecisionTree) (X : List Row)
    (hroot : t.root = none) (hX : X ≠ []) : predict t X = none := by
  cases X with
  | nil => exact absurd rfl hX
  | cons x tl => simp [predict, hroot]

/-- Witness for the amended C8 at a concrete one-row query. -/
theorem predict_unfitted_fails_witness :
    (mkTree cfgFree).root = none ∧ ([[5]] : List Row) ≠ [] ∧
    predict (mkTree cfgFree) [[5]] = none :=
  ⟨rfl, by decide, predict_unfitted_fails (mkTree cfgFree) [[5]] rfl (by decide)⟩

/-- Claim C9: `predict` on a zero-row feature matrix returns the empty
prediction list without any error on every instance — fitted or not — the
per-row loop body never runs, so the root is never dereferenced. -/
theorem predict_empty_rows (t : DecisionTree) : predict t [] = some [] := rfl

/-- Claim C10: the builder never checks that both partition sides are
non-empty: with a selector whose rule routes every sample right, the left
child is constructed with `size = 0` and an empty `sample_indices` list,
and is sealed like any other child. -/
theorem empty_child_sealed :
    fit (mkTree cfgD2) 3 [[0], [1]] [0, 1] selAllRight critEq evalHead =
      some ⟨some (NTree.internal ⟨[0, 1], 2, 1⟩ 0 0 (-1)
        (NTree.leaf ⟨[], 0, 2⟩ 0) (NTree.leaf ⟨[0, 1], 2, 2⟩ 0)), 3, 2, cfgD2⟩ ∧
    (NTree.leaf (⟨[], 0, 2⟩ : NodeInfo) 0).info.size = 0 ∧
    (NTree.leaf (⟨[], 0, 2⟩ : NodeInfo) 0).info.values = [] ∧
    (NTree.leaf (⟨[], 0, 2⟩ : NodeInfo) 0).is_leaf = true := by decide

end Eduml
